import Mathlib

/-!
Verification of a multilingual structural-probe implementation.

This file shallowly embeds the two source modules of the repository:
`network.py` (class `DistanceProbe`: `forward`, `_loss`, `train_on_batch`,
`evaluate`) and `src/data_support/conll_wrapper.py` (class `ConllWrapper`:
`read_conllu`, `remove_indices`, `training_examples`), and proves theorems
about the wordpiece-to-word alignment, the distance-probe loss, the frame
property of the training update, corpus filtering, and the evaluation loop.

Numeric tensors are embedded with exact rational arithmetic (`Rat`); batched
tensors are nested lists.  The BERT embedding model and the wordpiece
tokenizer are external collaborators and appear as opaque function
parameters, exactly as the source treats them.
-/

namespace MTP

/-- A 2-D tensor (matrix) of rationals: a list of rows. -/
abbrev Mat := List (List Rat)

/-- A 3-D tensor: batch of matrices. -/
abbrev T3 := List Mat

/-! ### Trainable parameter store and `DistanceProbe.train_on_batch`

`DistanceProbe.__init__` creates one shared projection variable
`Distance_Probe` and one `Language_Maps[lang]` variable per language.
`train_on_batch` builds `variables = [self.Distance_Probe,
self.Language_Maps[batch.language]]`, takes the tape gradients with respect
to exactly that list, and calls `apply_gradients(zip(gradients, variables))`.
-/

/-- Identifier of a trainable variable of `DistanceProbe`: the shared
projection matrix `Distance_Probe`, or the `Language_Maps` entry of one
language name. -/
inductive VarId where
  | distanceProbe : VarId
  | languageMap : String → VarId
  deriving DecidableEq

/-- `optimizer.apply_gradients` over an explicit (gradient, variable) list:
each listed variable is replaced by the optimizer step applied to its
gradient and its old value; a variable not in the list is left untouched. -/
def applyGradients {α : Type} (step : α → α → α) (gradsVars : List (α × VarId))
    (store : VarId → α) : VarId → α :=
  gradsVars.foldl (fun st gv => fun v => if v = gv.2 then step gv.1 (st v) else st v) store

/-- `DistanceProbe.train_on_batch`, parameter-update part: the `variables`
list is `[Distance_Probe, Language_Maps[batch.language]]` and
`apply_gradients` is applied to exactly those two entries (`g1`, `g2` are
the two tape gradients; `step` abstracts the optimizer's update rule). -/
def train_on_batch_update {α : Type} (step : α → α → α) (language : String)
    (g1 g2 : α) (store : VarId → α) : VarId → α :=
  applyGradients step [(g1, VarId.distanceProbe), (g2, VarId.languageMap language)] store

/-- C3: a training step on a batch tagged with language `L` computes its
update over exactly the two variables `Distance_Probe` and
`Language_Maps[L]`; after the optimizer step, the map parameter of every
language other than `L` is unchanged (bit-for-bit equal to its old value). -/
theorem train_on_batch_other_languages_unchanged {α : Type} (step : α → α → α)
    (L lang : String) (g1 g2 : α) (store : VarId → α) (h : lang ≠ L) :
    train_on_batch_update step L g1 g2 store (VarId.languageMap lang)
      = store (VarId.languageMap lang) := by
  simp [train_on_batch_update, applyGradients, List.foldl, h]

/-- C3 witness: a concrete update on an "en"-tagged batch leaves the "de"
map at its old value. -/
theorem train_on_batch_other_languages_unchanged_witness :
    train_on_batch_update (fun g v => g + v) "en" (1 : Int) 2 (fun _ => 0)
      (VarId.languageMap "de") = 0 :=
  train_on_batch_other_languages_unchanged (fun g v => g + v) "en" "de" 1 2
    (fun _ => 0) (by decide)

/-! ### `DistanceProbe.evaluate`

Source:
```
all_losses = np.zeros((len(self.languages)))
for lang_idx, language in self.languages:
    progressbar = tqdm(data.evaluate_batches(args.batch_size, language))
    batch_idx = 0
    for batch_idx, batch in enumerate(progressbar):
        batch_loss = self.evaluate_on_batch(batch)
        all_losses[lang_idx] += batch_loss
    all_losses[lang_idx] = all_losses[lang_idx] / (batch_idx + 1)
return all_losses.mean()
```
The loop header destructures each element of `self.languages` (a language
name string); the accumulator is then indexed with the bound value.
-/

/-- Python tuple-unpacking `a, b = s` where `s` is a string: succeeds iff
`s` has exactly two characters (yielding them), otherwise raises
`ValueError`.  Models the loop header `for lang_idx, language in
self.languages` at one element. -/
def pyUnpackPair (s : String) : Except String (Char × Char) :=
  match s.data with
  | [c1, c2] => Except.ok (c1, c2)
  | _ => Except.error "ValueError: unpacking"

/-- Indexing a numpy float array with a `Char` subscript (the code's
`all_losses[lang_idx]` where `lang_idx` came out of string unpacking):
always raises. -/
def npIndexByChar (_i : Char) : Except String Rat :=
  Except.error "IndexError: only integers are valid indices"

/-- Body of the per-language loop of `DistanceProbe.evaluate`, after the
header bound `lang_idx` and `language` to the two characters of a language
name.  The first access to `all_losses[lang_idx]` — inside the batch loop
if it runs at all, otherwise in the mean assignment after it — raises. -/
def evalLangBody (evalBatches : Char → List Rat) (i language : Char) :
    Except String Unit := do
  let _batches := evalBatches language
  let _ ← npIndexByChar i
  pure ()

/-- `DistanceProbe.evaluate`: initialize `all_losses` to zeros, run the
per-language loop `for lang_idx, language in self.languages`, then return
`all_losses.mean()`. -/
def evaluate (languages : List String) (evalBatches : Char → List Rat) :
    Except String Rat := do
  let allLosses : List Rat := List.replicate languages.length 0
  let _ ← languages.foldlM (fun (_u : Unit) lang => do
      let p ← pyUnpackPair lang
      evalLangBody evalBatches p.1 p.2) ()
  pure (allLosses.sum / (allLosses.length : Rat))

/-- C6 (code bug): with languages `["en", "es"]`, `evaluate` raises instead
of returning the mean over languages of per-language mean losses: the loop
header unpacks each language name into its two characters and the numpy
accumulator is then indexed with a character. -/
theorem evaluate_crashes_on_language_unpacking :
    ∃ msg, evaluate ["en", "es"] (fun _ => []) = Except.error msg :=
  ⟨"IndexError: only integers are valid indices", rfl⟩

/-! ### `DistanceProbe._loss`

Source:
```
sentence_loss = tf.reduce_sum(tf.abs(predicted_distances - gold_distances),
                              axis=[1,2]) / (tf.cast(token_lens, float) ** 2)
return tf.reduce_mean(sentence_loss)
```
-/

/-- Elementwise subtraction of two batches of matrices
(`predicted_distances - gold_distances`). -/
def tfSub (a b : T3) : T3 :=
  List.zipWith (fun ma mb =>
    List.zipWith (fun ra rb => List.zipWith (fun x y => x - y) ra rb) ma mb) a b

/-- Elementwise absolute value (`tf.abs`). -/
def tfAbs (a : T3) : T3 :=
  a.map (fun m => m.map (fun r => r.map (fun x => |x|)))

/-- `tf.reduce_sum(..., axis=[1,2])`: per batch element, sum over both
matrix axes. -/
def tfReduceSum12 (a : T3) : List Rat :=
  a.map (fun m => (m.map (fun r => r.sum)).sum)

/-- `tf.cast(token_lens, tf.float32) ** 2`. -/
def tfCastSquare (lens : List Nat) : List Rat :=
  lens.map (fun l => (Nat.cast l : Rat) ^ 2)

/-- The `sentence_loss` tensor of `DistanceProbe._loss`. -/
def sentence_loss (pred gold : T3) (lens : List Nat) : List Rat :=
  List.zipWith (fun s d => s / d) (tfReduceSum12 (tfAbs (tfSub pred gold)))
    (tfCastSquare lens)

/-- `tf.reduce_mean` of a vector. -/
def tfReduceMean (xs : List Rat) : Rat :=
  xs.sum / (xs.length : Rat)

/-- `DistanceProbe._loss(predicted_distances, gold_distances, token_lens)`. -/
def lossOf (pred gold : T3) (lens : List Nat) : Rat :=
  tfReduceMean (sentence_loss pred gold lens)

/-- The loss the claim describes, written per its words: for one sentence,
the sum over all word-pair positions of the absolute difference between the
predicted and gold distance matrices, divided by the square of the
sentence's true word count. -/
def specSentLoss (p g : Mat) (len : Nat) : Rat :=
  (((p.zip g).map (fun rp =>
      ((rp.1.zip rp.2).map (fun q => |q.1 - q.2|)).sum)).sum) / ((len : Rat) ^ 2)

/-- The claim's batch loss: the mean over the batch's sentences of the
per-sentence normalized absolute error. -/
def specLoss (pred gold : T3) (lens : List Nat) : Rat :=
  (List.zipWith3 specSentLoss pred gold lens).sum / (lens.length : Rat)

/-- One matrix row: the code's subtract-abs-sum pipeline equals the claim's
sum of absolute differences over paired entries. -/
theorem rowAbsSum_eq (ra rb : List Rat) :
    ((List.zipWith (fun x y => x - y) ra rb).map (fun x => |x|)).sum
      = ((ra.zip rb).map (fun q => |q.1 - q.2|)).sum := by
  induction ra generalizing rb with
  | nil => simp
  | cons x xs ih =>
    cases rb with
    | nil => simp
    | cons y ys => simp [ih ys]

/-- One matrix: the code's per-sentence reduction equals the claim's
per-sentence double sum. -/
theorem matAbsSum_eq (ma mb : Mat) :
    (((List.zipWith (fun ra rb => List.zipWith (fun x y => x - y) ra rb) ma mb).map
        (fun r => r.map (fun x => |x|))).map (fun r => r.sum)).sum
      = ((ma.zip mb).map (fun rp =>
          ((rp.1.zip rp.2).map (fun q => |q.1 - q.2|)).sum)).sum := by
  induction ma generalizing mb with
  | nil => simp
  | cons ra ras ih =>
    cases mb with
    | nil => simp
    | cons rb rbs =>
      have hrec := ih rbs
      simp only [List.map_map] at hrec
      simp [rowAbsSum_eq, List.map_map, hrec]

/-- Length of a three-way zip. -/
theorem zipWith3_length {α β γ δ : Type} (f : α → β → γ → δ) :
    ∀ (as : List α) (bs : List β) (cs : List γ),
      (List.zipWith3 f as bs cs).length = min as.length (min bs.length cs.length) := by
  intro as
  induction as with
  | nil => intro bs cs; simp [List.zipWith3]
  | cons a as ih =>
    intro bs cs
    cases bs with
    | nil => simp [List.zipWith3]
    | cons b bs =>
      cases cs with
      | nil => simp [List.zipWith3]
      | cons c cs => simp [List.zipWith3, ih bs cs]; omega

/-- The `sentence_loss` vector equals the claim's per-sentence losses. -/
theorem sentence_loss_eq_spec (pred gold : T3) (lens : List Nat) :
    sentence_loss pred gold lens = List.zipWith3 specSentLoss pred gold lens := by
  induction pred generalizing gold lens with
  | nil => simp [sentence_loss, tfReduceSum12, tfAbs, tfSub, tfCastSquare, List.zipWith3]
  | cons p ps ih =>
    cases gold with
    | nil => simp [sentence_loss, tfReduceSum12, tfAbs, tfSub, tfCastSquare, List.zipWith3]
    | cons g gs =>
      cases lens with
      | nil => simp [sentence_loss, tfReduceSum12, tfAbs, tfSub, tfCastSquare, List.zipWith3]
      | cons l ls =>
        have hrec := ih gs ls
        simp only [sentence_loss, tfReduceSum12, tfAbs, tfSub, tfCastSquare,
          List.zipWith_cons_cons, List.map_cons, List.zipWith3, specSentLoss] at hrec ⊢
        congr 1
        rw [matAbsSum_eq]

/-- C2: for every batch whose predicted tensor, gold tensor, and length
vector agree in batch size, `DistanceProbe._loss` returns the mean over the
batch's sentences of the sum of absolute differences between predicted and
gold distance matrices divided by the square of that sentence's true word
count. -/
theorem loss_is_mean_normalized_abs (pred gold : T3) (lens : List Nat)
    (h1 : pred.length = gold.length) (h2 : gold.length = lens.length) :
    lossOf pred gold lens = specLoss pred gold lens := by
  have hlen : (List.zipWith3 specSentLoss pred gold lens).length = lens.length := by
    rw [zipWith3_length, h1, h2]
    simp
  simp [lossOf, tfReduceMean, specLoss, sentence_loss_eq_spec, hlen]

/-- C2 witness at a concrete 1-sentence batch of 2x2 distance matrices. -/
theorem loss_is_mean_normalized_abs_witness :
    lossOf [[[0, 1], [1, 0]]] [[[0, 0], [0, 0]]] [2]
      = specLoss [[[0, 1], [1, 0]]] [[[0, 0], [0, 0]]] [2] :=
  loss_is_mean_normalized_abs [[[0, 1], [1, 0]]] [[[0, 0], [0, 0]]] [2] rfl rfl

/-! ### Per-language mean-loss slot (inner loop of `evaluate`) -/

/-- Value of `batch_idx` after the batch loop `batch_idx = 0;
for batch_idx, batch in enumerate(...)`, given the losses the loop would
see: it stays `0` when there is no batch, else ends at `count - 1`. -/
def lastBatchIdx (batchLosses : List Rat) : Nat :=
  if batchLosses.isEmpty then 0 else batchLosses.length - 1

/-- The per-language accumulator slot after the accumulation
`all_losses[lang_idx] += batch_loss` over all batches and the final
division `all_losses[lang_idx] / (batch_idx + 1)`. -/
def perLanguageMean (batchLosses : List Rat) : Rat :=
  batchLosses.sum / ((lastBatchIdx batchLosses + 1 : Nat) : Rat)

/-- C10: the divisor `batch_idx + 1` used for a language's mean loss is
always positive — `batch_idx` is initialized to `0` before the batch loop —
so a language with zero evaluation batches divides `0` by `1` and
contributes a per-language mean loss of `0`. -/
theorem evaluate_divisor_positive :
    (∀ batchLosses : List Rat, 0 < lastBatchIdx batchLosses + 1) ∧
    lastBatchIdx [] + 1 = 1 ∧ perLanguageMean [] = 0 := by
  refine ⟨fun batchLosses => Nat.succ_pos _, rfl, ?_⟩
  simp [perLanguageMean, lastBatchIdx]

/-! ### `ConllWrapper.read_conllu` and `ConllWrapper.remove_indices`

The column indices `CONLLU_ID`, `CONLLU_HEAD`, `CONLLU_ORTH`,
`CONLLU_LEMMA`, `CONLLU_POS` come from the repository's `constants` module,
which is not part of the given sources; they are kept as parameters. -/

/-- Column layout of the corpus file (the `constants` module's
`CONLLU_*` indices). -/
structure ConlluCols where
  CONLLU_ID : Nat
  CONLLU_HEAD : Nat
  CONLLU_ORTH : Nat
  CONLLU_LEMMA : Nat
  CONLLU_POS : Nat

/-- The mutable per-sentence fields of a `ConllWrapper` during
`read_conllu`: the committed corpus fields plus the accumulators of the
sentence currently being read. -/
structure RState where
  relations : List (List (Int × Int))
  tokens : List (List String)
  lemmas : List (List String)
  pos : List (List String)
  roots : List Int
  sentence_relations : List (Int × Int)
  sentence_tokens : List String
  sentence_lemmas : List String
  sentence_pos : List String

/-- Python whitespace for `str.strip`. -/
def pySpace (c : Char) : Bool :=
  c == ' ' || c == '\t' || c == '\n' || c == '\r' || c == '\x0b' || c == '\x0c'

/-- Python `str.strip()` on a character list: drop leading and trailing
whitespace. -/
def pyStrip (s : List Char) : List Char :=
  ((s.dropWhile pySpace).reverse.dropWhile pySpace).reverse

/-- Python `str.split(sep)` for a one-character separator: cut at every
occurrence, keeping empty pieces. -/
def splitChar (sep : Char) : List Char → List (List Char)
  | [] => [[]]
  | c :: cs =>
    if c = sep then [] :: splitChar sep cs
    else
      match splitChar sep cs with
      | [] => [[c]]
      | g :: gs => (c :: g) :: gs

/-- Python `str.isdigit`: nonempty and all characters are digits. -/
def pyIsDigit (s : String) : Bool :=
  !s.data.isEmpty && s.data.all Char.isDigit

/-- Digit characters to the natural number they spell. -/
def digitsToNat (cs : List Char) : Nat :=
  cs.foldl (fun n c => n * 10 + (c.toNat - 48)) 0

/-- Python `int(s)` when it succeeds: optional surrounding whitespace,
optional sign, then digits. -/
def pyIntOpt (s : String) : Option Int :=
  match pyStrip s.data with
  | [] => none
  | '-' :: rest =>
    if !rest.isEmpty && rest.all Char.isDigit then some (-(digitsToNat rest : Int)) else none
  | '+' :: rest =>
    if !rest.isEmpty && rest.all Char.isDigit then some (digitsToNat rest : Int) else none
  | cs =>
    if cs.all Char.isDigit then some (digitsToNat cs : Int) else none

/-- Python `int(s)` on the field strings the parser feeds it (the source
calls it only on digit strings and on the head field; a field on which
`int` would raise is excluded by the well-formedness side conditions of
the theorems below). -/
def pyInt (s : String) : Int :=
  (pyIntOpt s).getD 0

/-- Python `line.startswith('#')`: the first character is `#`. -/
def startsWithHash (line : String) : Bool :=
  match line.data with
  | c :: _ => c == '#'
  | [] => false

/-- `line.strip().split('\t')`. -/
def rowFields (line : String) : List String :=
  (splitChar '\t' (pyStrip line.data)).map (fun cs => String.mk cs)

/-- One iteration of the `for line in in_conllu` loop of `read_conllu`:
a blank line commits the accumulated sentence to every committed field;
a `#` line is skipped; a row whose id field is all digits appends to the
sentence accumulators and, when its head id is 0, to `roots`. -/
def processLine (cfg : ConlluCols) (st : RState) (line : String) : RState :=
  if line = "\n" then
    { st with
      relations := st.relations ++ [st.sentence_relations], sentence_relations := [],
      tokens := st.tokens ++ [st.sentence_tokens], sentence_tokens := [],
      lemmas := st.lemmas ++ [st.sentence_lemmas], sentence_lemmas := [],
      pos := st.pos ++ [st.sentence_pos], sentence_pos := [] }
  else if startsWithHash line then st
  else
    let fields := rowFields line
    if pyIsDigit (fields.getD cfg.CONLLU_ID "") then
      let head_id := pyInt (fields.getD cfg.CONLLU_HEAD "")
      let dep_id := pyInt (fields.getD cfg.CONLLU_ID "")
      { st with
        sentence_relations := st.sentence_relations ++ [(dep_id, head_id)],
        roots := if head_id = 0 then st.roots ++ [dep_id] else st.roots,
        sentence_tokens := st.sentence_tokens ++ [fields.getD cfg.CONLLU_ORTH ""],
        sentence_lemmas := st.sentence_lemmas ++ [fields.getD cfg.CONLLU_LEMMA ""],
        sentence_pos := st.sentence_pos ++ [fields.getD cfg.CONLLU_POS ""] }
    else st

/-- The state a fresh `ConllWrapper` starts from. -/
def initRState : RState :=
  ⟨[], [], [], [], [], [], [], [], []⟩

/-- `ConllWrapper.read_conllu` over the file's lines. -/
def read_conllu (cfg : ConlluCols) (lines : List String) : RState :=
  lines.foldl (processLine cfg) initRState

/-- A non-blank, non-comment row whose id is digits and whose head id is 0:
exactly the rows `read_conllu` appends to `roots`. -/
def isRootRow (cfg : ConlluCols) (line : String) : Bool :=
  !startsWithHash line &&
    pyIsDigit ((rowFields line).getD cfg.CONLLU_ID "") &&
    decide (pyInt ((rowFields line).getD cfg.CONLLU_HEAD "") = 0)

/-- The root ids contributed by a list of rows. -/
def rootIds (cfg : ConlluCols) (s : List String) : List Int :=
  (s.filter (isRootRow cfg)).map (fun l => pyInt ((rowFields l).getD cfg.CONLLU_ID ""))

/-- A row on which the Python parser does not raise: if its id field is all
digits then every consumed column exists and the head field parses as an
integer. -/
def rowOk (cfg : ConlluCols) (line : String) : Bool :=
  !(pyIsDigit ((rowFields line).getD cfg.CONLLU_ID "")) ||
    (decide (cfg.CONLLU_HEAD < (rowFields line).length) &&
     (pyIntOpt ((rowFields line).getD cfg.CONLLU_HEAD "")).isSome &&
     decide (cfg.CONLLU_ORTH < (rowFields line).length) &&
     decide (cfg.CONLLU_LEMMA < (rowFields line).length) &&
     decide (cfg.CONLLU_POS < (rowFields line).length))

/-- A non-blank line never changes the committed corpus fields; it extends
`roots` exactly when it is a root row. -/
theorem processLine_nonblank (cfg : ConlluCols) (st : RState) (l : String)
    (h : l ≠ "\n") :
    (processLine cfg st l).tokens = st.tokens ∧
    (processLine cfg st l).lemmas = st.lemmas ∧
    (processLine cfg st l).pos = st.pos ∧
    (processLine cfg st l).relations = st.relations ∧
    (processLine cfg st l).roots
      = st.roots ++ (if isRootRow cfg l then
          [pyInt ((rowFields l).getD cfg.CONLLU_ID "")] else []) := by
  simp only [processLine]
  rw [if_neg h]
  cases hc : startsWithHash l with
  | true =>
    have hr : isRootRow cfg l = false := by
      simp only [isRootRow, hc, Bool.not_true, Bool.false_and]
    simp [hr]
  | false =>
    cases hd : pyIsDigit ((rowFields l).getD cfg.CONLLU_ID "") with
    | false =>
      have hr : isRootRow cfg l = false := by
        simp only [isRootRow, hd, Bool.and_false, Bool.false_and]
      simp [hr]
    | true =>
      by_cases hz : pyInt ((rowFields l).getD cfg.CONLLU_HEAD "") = 0
      · have hr : isRootRow cfg l = true := by
          simp only [isRootRow, hc, hd, hz, Bool.not_false, Bool.true_and]
          rfl
        rw [if_pos hz]
        simp [hr]
      · have hr : isRootRow cfg l = false := by
          simp only [isRootRow, hc, hd, Bool.not_false, Bool.true_and]
          exact decide_eq_false hz
        rw [if_neg hz]
        simp [hr]

/-- Folding `processLine` over blank-free lines leaves the committed fields
unchanged and appends exactly the root rows' ids to `roots`. -/
theorem read_fold_nonblank (cfg : ConlluCols) :
    ∀ (s : List String) (st : RState), (∀ l ∈ s, l ≠ "\n") →
      (s.foldl (processLine cfg) st).tokens = st.tokens ∧
      (s.foldl (processLine cfg) st).lemmas = st.lemmas ∧
      (s.foldl (processLine cfg) st).pos = st.pos ∧
      (s.foldl (processLine cfg) st).relations = st.relations ∧
      (s.foldl (processLine cfg) st).roots = st.roots ++ rootIds cfg s := by
  intro s
  induction s with
  | nil => intro st h; simp [rootIds]
  | cons l s ih =>
    intro st h
    have hl : l ≠ "\n" := h l (by simp)
    have hs : ∀ x ∈ s, x ≠ "\n" := fun x hx => h x (by simp [hx])
    obtain ⟨h1, h2, h3, h4, h5⟩ := processLine_nonblank cfg st l hl
    obtain ⟨g1, g2, g3, g4, g5⟩ := ih (processLine cfg st l) hs
    refine ⟨by rw [List.foldl_cons, g1, h1], by rw [List.foldl_cons, g2, h2],
      by rw [List.foldl_cons, g3, h3], by rw [List.foldl_cons, g4, h4], ?_⟩
    rw [List.foldl_cons, g5, h5]
    by_cases hr : isRootRow cfg l = true
    · simp [rootIds, List.filter_cons, hr, List.append_assoc]
    · simp [rootIds, List.filter_cons, hr]

/-- C9: when a corpus file ends in a final sentence not followed by a blank
line (the file is `P ++ S` with `S` blank-free), `read_conllu` never
commits that trailing sentence's tokens, lemmas, POS tags, or relations —
they equal what reading `P` alone commits — while every root row of the
trailing part has already been appended to `roots`.  The `rowOk` side
conditions restrict to rows the Python parser accepts without raising. -/
theorem read_conllu_trailing_sentence_discarded (cfg : ConlluCols)
    (P S : List String)
    (hPWF : ∀ l ∈ P, rowOk cfg l = true)
    (hS : ∀ l ∈ S, l ≠ "\n")
    (hWF : ∀ l ∈ S, rowOk cfg l = true) :
    (read_conllu cfg (P ++ S)).tokens = (read_conllu cfg P).tokens ∧
    (read_conllu cfg (P ++ S)).lemmas = (read_conllu cfg P).lemmas ∧
    (read_conllu cfg (P ++ S)).pos = (read_conllu cfg P).pos ∧
    (read_conllu cfg (P ++ S)).relations = (read_conllu cfg P).relations ∧
    (read_conllu cfg (P ++ S)).roots = (read_conllu cfg P).roots ++ rootIds cfg S := by
  unfold read_conllu
  rw [List.foldl_append]
  exact read_fold_nonblank cfg S (P.foldl (processLine cfg) initRState) hS

/-- Concrete column layout of a standard file (id, form, lemma, upos at
columns 0 to 3, head at column 6). -/
def cfgW : ConlluCols :=
  ⟨0, 6, 1, 2, 3⟩

/-- Complete part of a concrete corpus file: one committed sentence. -/
def linesPW : List String :=
  ["# sent 1", "1\tHello\thello\tINTJ\t_\t_\t0\troot", "\n"]

/-- Trailing sentence of the same file, not followed by a blank line. -/
def linesSW : List String :=
  ["1\tBye\tbye\tINTJ\t_\t_\t0\troot"]

/-- C9 witness: on a concrete file whose last sentence is not followed by a
blank line, the committed tokens are exactly those of the complete part. -/
theorem read_conllu_trailing_sentence_discarded_witness :
    (read_conllu cfgW (linesPW ++ linesSW)).tokens = (read_conllu cfgW linesPW).tokens :=
  (read_conllu_trailing_sentence_discarded cfgW linesPW linesSW
    (by decide) (by decide) (by decide)).1

/-- `[v for i, v in enumerate(xs) if i not in indices_to_rm]`. -/
def removeIdxList {α : Type} (rm : List Nat) (xs : List α) : List α :=
  (xs.enum.filter (fun p => !(rm.contains p.1))).map Prod.snd

/-- `ConllWrapper.remove_indices`: filters every nonempty per-sentence
corpus field by index (an empty field is left alone by the
`if self.field:` guard). -/
def remove_indices (st : RState) (rm : List Nat) : RState :=
  { st with
    tokens := if st.tokens.isEmpty then st.tokens else removeIdxList rm st.tokens,
    lemmas := if st.lemmas.isEmpty then st.lemmas else removeIdxList rm st.lemmas,
    pos := if st.pos.isEmpty then st.pos else removeIdxList rm st.pos,
    relations := if st.relations.isEmpty then st.relations else removeIdxList rm st.relations,
    roots := if st.roots.isEmpty then st.roots else removeIdxList rm st.roots }

/-- Index filtering from a given enumeration offset (generalization of
`removeIdxList` for induction). -/
def removeIdxFrom {α : Type} (rm : List Nat) (n : Nat) (xs : List α) : List α :=
  ((List.enumFrom n xs).filter (fun p => !(rm.contains p.1))).map Prod.snd

theorem removeIdxList_eq_from {α : Type} (rm : List Nat) (xs : List α) :
    removeIdxList rm xs = removeIdxFrom rm 0 xs := by
  simp [removeIdxList, removeIdxFrom, List.enum]

theorem removeIdxFrom_nil {α : Type} (rm : List Nat) (n : Nat) :
    removeIdxFrom rm n ([] : List α) = [] := by
  simp [removeIdxFrom, List.enumFrom]

theorem removeIdxFrom_cons {α : Type} (rm : List Nat) (n : Nat) (x : α) (xs : List α) :
    removeIdxFrom rm n (x :: xs)
      = (if rm.contains n then [] else [x]) ++ removeIdxFrom rm (n + 1) xs := by
  by_cases h : n ∈ rm
  · simp [removeIdxFrom, List.enumFrom, List.filter_cons, h]
  · simp [removeIdxFrom, List.enumFrom, List.filter_cons, h]

/-- Filtering by index commutes with zipping two equal-length lists: the
surviving pairs are exactly the pairs of survivors. -/
theorem removeIdxFrom_zip {α β : Type} (rm : List Nat) :
    ∀ (xs : List α) (ys : List β) (n : Nat), xs.length = ys.length →
      removeIdxFrom rm n (xs.zip ys)
        = (removeIdxFrom rm n xs).zip (removeIdxFrom rm n ys) := by
  intro xs
  induction xs with
  | nil =>
    intro ys n h
    simp [removeIdxFrom_nil]
  | cons x xs ih =>
    intro ys n h
    cases ys with
    | nil => simp at h
    | cons y ys =>
      have hlen : xs.length = ys.length := by simpa using h
      rw [List.zip_cons_cons, removeIdxFrom_cons, removeIdxFrom_cons, removeIdxFrom_cons,
        ih ys (n + 1) hlen]
      by_cases hc : n ∈ rm
      · simp [hc]
      · simp [hc]

/-- Filtering by index sends equal-length lists to equal-length lists. -/
theorem removeIdxFrom_length_eq {α β : Type} (rm : List Nat) :
    ∀ (xs : List α) (ys : List β) (n : Nat), xs.length = ys.length →
      (removeIdxFrom rm n xs).length = (removeIdxFrom rm n ys).length := by
  intro xs
  induction xs with
  | nil =>
    intro ys n h
    cases ys with
    | nil => rfl
    | cons y ys => simp at h
  | cons x xs ih =>
    intro ys n h
    cases ys with
    | nil => simp at h
    | cons y ys =>
      have hlen : xs.length = ys.length := by simpa using h
      rw [removeIdxFrom_cons, removeIdxFrom_cons]
      by_cases hc : n ∈ rm
      · simp [hc, ih ys (n + 1) hlen]
      · simp [hc, ih ys (n + 1) hlen]

/-- C5: on a corpus whose per-sentence fields are index-aligned (equal
lengths), `remove_indices` removes the entry at each rejected index from
every field in lock-step: afterwards all five fields again have equal
lengths, and zipping any two output fields equals filtering the zipped
input fields — entry `i` of every field still describes the same surviving
sentence. -/
theorem remove_indices_lockstep (st : RState) (rm : List Nat)
    (h1 : st.tokens.length = st.lemmas.length)
    (h2 : st.tokens.length = st.pos.length)
    (h3 : st.tokens.length = st.relations.length)
    (h4 : st.tokens.length = st.roots.length) :
    ((remove_indices st rm).tokens.length = (remove_indices st rm).lemmas.length ∧
     (remove_indices st rm).tokens.length = (remove_indices st rm).pos.length ∧
     (remove_indices st rm).tokens.length = (remove_indices st rm).relations.length ∧
     (remove_indices st rm).tokens.length = (remove_indices st rm).roots.length) ∧
    ((remove_indices st rm).tokens.zip (remove_indices st rm).lemmas
        = removeIdxList rm (st.tokens.zip st.lemmas) ∧
     (remove_indices st rm).tokens.zip (remove_indices st rm).pos
        = removeIdxList rm (st.tokens.zip st.pos) ∧
     (remove_indices st rm).tokens.zip (remove_indices st rm).relations
        = removeIdxList rm (st.tokens.zip st.relations) ∧
     (remove_indices st rm).tokens.zip (remove_indices st rm).roots
        = removeIdxList rm (st.tokens.zip st.roots)) := by
  have guard : ∀ {α : Type} (xs : List α),
      (if xs.isEmpty then xs else removeIdxList rm xs) = removeIdxList rm xs := by
    intro α xs
    cases xs with
    | nil => simp [removeIdxList]
    | cons x xs => simp
  simp only [remove_indices]
  rw [guard st.tokens, guard st.lemmas, guard st.pos, guard st.relations, guard st.roots]
  simp only [removeIdxList_eq_from]
  exact ⟨⟨removeIdxFrom_length_eq rm _ _ 0 h1, removeIdxFrom_length_eq rm _ _ 0 h2,
      removeIdxFrom_length_eq rm _ _ 0 h3, removeIdxFrom_length_eq rm _ _ 0 h4⟩,
    (removeIdxFrom_zip rm _ _ 0 h1).symm, (removeIdxFrom_zip rm _ _ 0 h2).symm,
    (removeIdxFrom_zip rm _ _ 0 h3).symm, (removeIdxFrom_zip rm _ _ 0 h4).symm⟩

/-- A concrete two-sentence aligned corpus. -/
def stW : RState :=
  { relations := [[(1, 0)], [(1, 0)]],
    tokens := [["Hello"], ["Bye"]],
    lemmas := [["hello"], ["bye"]],
    pos := [["INTJ"], ["INTJ"]],
    roots := [1, 1],
    sentence_relations := [], sentence_tokens := [],
    sentence_lemmas := [], sentence_pos := [] }

/-- C5 witness: removing index 0 from the concrete corpus keeps tokens and
lemmas at the same length. -/
theorem remove_indices_lockstep_witness :
    (remove_indices stW [0]).tokens.length = (remove_indices stW [0]).lemmas.length :=
  (remove_indices_lockstep stW [0] rfl rfl rfl rfl).1.1

/-! ### `ConllWrapper.training_examples`: the wordpiece-to-word segment map

Source, per sentence:
```
sent_wordpieces = ["[CLS]"] + tokenizer.tokenize(' '.join(sent_tokens)) + ["[SEP]"]
...
sent_segments = np.zeros((constants.MAX_WORDPIECES,), dtype=np.int64) - 1
segment_id = 0
wordpiece_pointer = 1
for token in sent_tokens:
    worpieces_per_token = len(tokenizer.tokenize(token))
    sent_segments[wordpiece_pointer:wordpiece_pointer+worpieces_per_token] = segment_id
    wordpiece_pointer += worpieces_per_token
    segment_id += 1
if wordpiece_pointer+1 != len(sent_wordpieces): reject
else: keep; max_segment.append(segment_id)
```
The tokenizer is an opaque parameter `tok : String → List String`.
-/

/-- `' '.join(sent_tokens)`. -/
def joinWords (toks : List String) : String :=
  String.intercalate " " toks

/-- `["[CLS]"] + tokenizer.tokenize(' '.join(sent_tokens)) + ["[SEP]"]`. -/
def sentWordpieces (tok : String → List String) (toks : List String) : List String :=
  "[CLS]" :: (tok (joinWords toks) ++ ["[SEP]"])

/-- Total wordpiece count from tokenizing each word of the sentence in
isolation. -/
def sumK (tok : String → List String) (toks : List String) : Nat :=
  (toks.map (fun t => (tok t).length)).sum

/-- numpy slice assignment `a[start:start+len] = v`: overwrite `len` cells
beginning at `start`, clipped at the array bound exactly as numpy clips
slices. -/
def setSlice (a : List Int) (start len : Nat) (v : Int) : List Int :=
  match a, start, len with
  | [], _, _ => []
  | x :: xs, s + 1, l => x :: setSlice xs s l v
  | _x :: xs, 0, l + 1 => v :: setSlice xs 0 l v
  | x :: xs, 0, 0 => x :: xs

/-- The loop body of the per-token loop above, on the state
`(sent_segments, segment_id, wordpiece_pointer)`. -/
def segStep (tok : String → List String) (acc : List Int × Nat × Nat) (t : String) :
    List Int × Nat × Nat :=
  let k := (tok t).length
  (setSlice acc.1 acc.2.2 k ((acc.2.1 : Int)), acc.2.1 + 1, acc.2.2 + k)

/-- State `(sent_segments, segment_id, wordpiece_pointer)` after the
per-token loop, starting from the all-(-1) array of length
`MAX_WORDPIECES`, `segment_id = 0`, `wordpiece_pointer = 1`. -/
def segResult (tok : String → List String) (MW : Nat) (toks : List String) :
    List Int × Nat × Nat :=
  toks.foldl (segStep tok) (List.replicate MW (-1), 0, 1)

/-- The sentence's segment map `sent_segments` after the loop. -/
def segmentsOf (tok : String → List String) (MW : Nat) (toks : List String) : List Int :=
  (segResult tok MW toks).1

/-- The sentence's `segment_id` after the loop: the value
`training_examples` appends to `max_segment` when the sentence is kept. -/
def maxSegmentEntryOf (tok : String → List String) (MW : Nat) (toks : List String) : Nat :=
  (segResult tok MW toks).2.1

/-- The sentence's `wordpiece_pointer` after the loop. -/
def finalPointerOf (tok : String → List String) (MW : Nat) (toks : List String) : Nat :=
  (segResult tok MW toks).2.2

/-- The consistency check `wordpiece_pointer+1 != len(sent_wordpieces)`:
the sentence is kept iff this boolean is true. -/
def keptCheck (tok : String → List String) (MW : Nat) (toks : List String) : Bool :=
  finalPointerOf tok MW toks + 1 == (sentWordpieces tok toks).length

/-- Closed-form body of a segment map: word `w` (counting from `sid`)
contributes `(tok w).length` consecutive copies of its index. -/
def segSpecFrom (tok : String → List String) : Nat → List String → List Int
  | _, [] => []
  | sid, t :: ts =>
    List.replicate (tok t).length (sid : Int) ++ segSpecFrom tok (sid + 1) ts

theorem sumK_nil (tok : String → List String) : sumK tok [] = 0 := rfl

theorem sumK_cons (tok : String → List String) (t : String) (ts : List String) :
    sumK tok (t :: ts) = (tok t).length + sumK tok ts := by
  simp [sumK]

theorem segSpecFrom_length (tok : String → List String) :
    ∀ (ts : List String) (sid : Nat), (segSpecFrom tok sid ts).length = sumK tok ts := by
  intro ts
  induction ts with
  | nil => intro sid; simp [segSpecFrom, sumK_nil]
  | cons t ts ih => intro sid; simp [segSpecFrom, sumK_cons, ih (sid + 1)]

theorem setSlice_append (v : Int) :
    ∀ (A B : List Int) (k : Nat), setSlice (A ++ B) A.length k v = A ++ setSlice B 0 k v := by
  intro A
  induction A with
  | nil => intro B k; simp
  | cons a A ih => intro B k; simp [setSlice, ih B k]

theorem setSlice_replicate (v c : Int) :
    ∀ (k m : Nat), k ≤ m →
      setSlice (List.replicate m c) 0 k v
        = List.replicate k v ++ List.replicate (m - k) c := by
  intro k
  induction k with
  | zero =>
    intro m hm
    cases m with
    | zero => simp [setSlice]
    | succ m => simp [setSlice, List.replicate_succ]
  | succ k ih =>
    intro m hm
    cases m with
    | zero => omega
    | succ m =>
      have hk : k ≤ m := by omega
      simp [List.replicate_succ, setSlice, ih m hk]

/-- The per-token loop, run from a state whose segment array is a filled
prefix `A` (with the pointer at its end) followed by `m` sentinel cells:
it writes the closed-form body after `A` and advances the counters. -/
theorem segResult_go (tok : String → List String) :
    ∀ (ts : List String) (A : List Int) (m sid : Nat),
      sumK tok ts ≤ m →
      ts.foldl (segStep tok) (A ++ List.replicate m (-1), sid, A.length)
        = (A ++ (segSpecFrom tok sid ts ++ List.replicate (m - sumK tok ts) (-1)),
           sid + ts.length, A.length + sumK tok ts) := by
  intro ts
  induction ts with
  | nil =>
    intro A m sid h
    simp [segSpecFrom, sumK_nil]
  | cons t ts ih =>
    intro A m sid h
    rw [sumK_cons] at h
    have hk : (tok t).length ≤ m := by omega
    have hrest : sumK tok ts ≤ m - (tok t).length := by omega
    rw [List.foldl_cons]
    have hstep : segStep tok (A ++ List.replicate m (-1), sid, A.length) t
        = ((A ++ List.replicate (tok t).length (sid : Int))
            ++ List.replicate (m - (tok t).length) (-1),
           sid + 1, (A ++ List.replicate (tok t).length (sid : Int)).length) := by
      simp only [segStep, setSlice_append, setSlice_replicate _ _ _ _ hk]
      simp [List.append_assoc]
    rw [hstep, ih (A ++ List.replicate (tok t).length (sid : Int))
      (m - (tok t).length) (sid + 1) hrest]
    have harith : m - (tok t).length - sumK tok ts
        = m - ((tok t).length + sumK tok ts) := by omega
    simp only [Prod.mk.injEq]
    refine ⟨?_, ?_, ?_⟩
    · simp only [segSpecFrom, sumK_cons, List.append_assoc, harith]
    · simp only [List.length_cons]
      omega
    · rw [sumK_cons]
      simp only [List.length_append, List.length_replicate]
      omega

/-- Closed form of the whole `segResult` when the sentence's wordpieces
fit the array. -/
theorem segResult_eq (tok : String → List String) (MW : Nat) (toks : List String)
    (h : 1 + sumK tok toks ≤ MW) :
    segResult tok MW toks
      = ((-1) :: (segSpecFrom tok 0 toks
            ++ List.replicate (MW - 1 - sumK tok toks) (-1)),
         toks.length, 1 + sumK tok toks) := by
  obtain ⟨m, rfl⟩ : ∃ m, MW = m + 1 := ⟨MW - 1, by omega⟩
  have hgo := segResult_go tok toks [(-1 : Int)] m 0 (by omega)
  simp only [List.singleton_append, List.length_singleton, Nat.zero_add] at hgo
  unfold segResult
  rw [show List.replicate (m + 1) (-1 : Int) = (-1) :: List.replicate m (-1) from
    List.replicate_succ (-1) m]
  rw [hgo]
  have hm : m + 1 - 1 - sumK tok toks = m - sumK tok toks := by omega
  rw [hm]

theorem segSpecFrom_mem (tok : String → List String) :
    ∀ (ts : List String) (sid : Nat) (x : Int), x ∈ segSpecFrom tok sid ts →
      (sid : Int) ≤ x ∧ x < ((sid + ts.length : Nat) : Int) := by
  intro ts
  induction ts with
  | nil =>
    intro sid x hx
    simp [segSpecFrom] at hx
  | cons t ts ih =>
    intro sid x hx
    simp only [segSpecFrom, List.mem_append, List.mem_replicate] at hx
    rcases hx with ⟨hk, rfl⟩ | hx
    · refine ⟨le_refl _, ?_⟩
      simp only [List.length_cons]
      omega
    · obtain ⟨h1, h2⟩ := ih (sid + 1) x hx
      refine ⟨by omega, ?_⟩
      simp only [List.length_cons]
      omega

theorem segSpecFrom_count (tok : String → List String) :
    ∀ (ts : List String) (sid w : Nat), w < ts.length →
      (segSpecFrom tok sid ts).count ((sid + w : Nat) : Int)
        = (tok (ts.getD w "")).length := by
  intro ts
  induction ts with
  | nil =>
    intro sid w hw
    simp at hw
  | cons t ts ih =>
    intro sid w hw
    cases w with
    | zero =>
      have hnot : (sid : Int) ∉ segSpecFrom tok (sid + 1) ts := by
        intro hmem
        have := (segSpecFrom_mem tok ts (sid + 1) _ hmem).1
        omega
      simp [segSpecFrom, List.count_append, List.count_replicate_self,
        List.count_eq_zero.mpr hnot]
    | succ w =>
      have hidx : sid + (w + 1) = (sid + 1) + w := by omega
      have hrec := ih (sid + 1) w (by simpa using hw)
      simp only [segSpecFrom, List.count_append, List.count_replicate,
        List.getD_cons_succ]
      rw [hidx, hrec]
      have hzero : (((sid : Int)) == ((sid + 1 + w : Nat) : Int)) = false := by
        simp only [beq_eq_false_iff_ne, ne_eq, Nat.cast_inj]
        omega
      rw [hzero]
      simp

theorem segSpecFrom_mem_of (tok : String → List String) :
    ∀ (ts : List String) (sid w : Nat), w < ts.length →
      0 < (tok (ts.getD w "")).length →
      ((sid + w : Nat) : Int) ∈ segSpecFrom tok sid ts := by
  intro ts
  induction ts with
  | nil =>
    intro sid w hw
    simp at hw
  | cons t ts ih =>
    intro sid w hw hpos
    cases w with
    | zero =>
      simp only [segSpecFrom, List.mem_append, List.mem_replicate]
      left
      refine ⟨?_, by simp⟩
      simpa using Nat.pos_iff_ne_zero.mp hpos
    | succ w =>
      simp only [segSpecFrom, List.mem_append]
      right
      have hidx : sid + (w + 1) = (sid + 1) + w := by omega
      rw [hidx]
      exact ih (sid + 1) w (by simpa using hw) (by simpa using hpos)

theorem pairwise_le_replicate (n : Nat) (a : Int) :
    List.Pairwise (fun x y => x ≤ y) (List.replicate n a) := by
  induction n with
  | zero => simp
  | succ n ih =>
    rw [List.replicate_succ]
    refine List.Pairwise.cons ?_ ih
    intro b hb
    exact le_of_eq (List.eq_of_mem_replicate hb).symm

theorem segSpecFrom_pairwise (tok : String → List String) :
    ∀ (ts : List String) (sid : Nat),
      List.Pairwise (fun x y => x ≤ y) (segSpecFrom tok sid ts) := by
  intro ts
  induction ts with
  | nil =>
    intro sid
    simp [segSpecFrom]
  | cons t ts ih =>
    intro sid
    rw [show segSpecFrom tok sid (t :: ts)
        = List.replicate (tok t).length (sid : Int) ++ segSpecFrom tok (sid + 1) ts
      from rfl]
    rw [List.pairwise_append]
    refine ⟨pairwise_le_replicate _ _, ih (sid + 1), ?_⟩
    intro a ha b hb
    rw [List.eq_of_mem_replicate ha]
    have := (segSpecFrom_mem tok ts (sid + 1) b hb).1
    omega

theorem getD_replicate_sentinel :
    ∀ (p j : Nat), (List.replicate p (-1 : Int)).getD j (-1) = -1 := by
  intro p
  induction p with
  | zero => intro j; simp
  | succ p ih =>
    intro j
    cases j with
    | zero => simp [List.replicate_succ]
    | succ j => simp [List.replicate_succ, ih j]

/-- Entry `i` of a surviving segment map: the body value at `i - 1` inside
the written region, the sentinel everywhere else. -/
theorem segments_entry (tok : String → List String) (MW : Nat) (toks : List String)
    (h : 1 + sumK tok toks ≤ MW) (i : Nat) :
    (segmentsOf tok MW toks).getD i (-1)
      = if 1 ≤ i ∧ i - 1 < sumK tok toks
        then (segSpecFrom tok 0 toks).getD (i - 1) (-1)
        else (-1) := by
  rw [segmentsOf, segResult_eq tok MW toks h]
  cases i with
  | zero => simp
  | succ i =>
    simp only [List.getD_cons_succ, Nat.add_sub_cancel]
    by_cases hi : i < sumK tok toks
    · rw [if_pos ⟨by omega, hi⟩]
      have hlen : i < (segSpecFrom tok 0 toks).length := by
        rw [segSpecFrom_length]
        exact hi
      rw [List.getD_append _ _ _ _ hlen]
    · rw [if_neg (by omega)]
      have hlen : (segSpecFrom tok 0 toks).length ≤ i := by
        rw [segSpecFrom_length]
        omega
      rw [List.getD_append_right _ _ _ _ hlen]
      exact getD_replicate_sentinel _ _

theorem foldl_max_init_le : ∀ (l : List Int) (a : Int), a ≤ l.foldl max a := by
  intro l
  induction l with
  | nil => intro a; exact le_refl a
  | cons x xs ih => intro a; exact le_trans (le_max_left a x) (ih (max a x))

theorem foldl_max_le_of_mem :
    ∀ (l : List Int) (a x : Int), x ∈ l → x ≤ l.foldl max a := by
  intro l
  induction l with
  | nil =>
    intro a x hx
    simp at hx
  | cons y ys ih =>
    intro a x hx
    rcases List.mem_cons.mp hx with rfl | hx
    · exact le_trans (le_max_right a x) (foldl_max_init_le ys (max a x))
    · exact ih (max a y) x hx

theorem foldl_max_le :
    ∀ (l : List Int) (a N : Int), a ≤ N → (∀ x ∈ l, x ≤ N) → l.foldl max a ≤ N := by
  intro l
  induction l with
  | nil =>
    intro a N h _
    exact h
  | cons y ys ih =>
    intro a N h hall
    exact ih (max a y) N (max_le h (hall y (by simp)))
      (fun x hx => hall x (by simp [hx]))

/-- The maximum segment id actually present in a segment map (fold of
`max` over the array, starting from the sentinel). -/
def observedMax (segs : List Int) : Int :=
  segs.foldl max (-1)

/-- The counters of the per-token loop, from any start state: `segment_id`
advances by the word count and `wordpiece_pointer` by the total per-word
wordpiece count. -/
theorem segResult_counts (tok : String → List String) :
    ∀ (ts : List String) (segs : List Int) (sid ptr : Nat),
      (ts.foldl (segStep tok) (segs, sid, ptr)).2.1 = sid + ts.length ∧
      (ts.foldl (segStep tok) (segs, sid, ptr)).2.2 = ptr + sumK tok ts := by
  intro ts
  induction ts with
  | nil =>
    intro segs sid ptr
    simp [sumK_nil]
  | cons t ts ih =>
    intro segs sid ptr
    rw [List.foldl_cons,
      show segStep tok (segs, sid, ptr) t
        = (setSlice segs ptr (tok t).length (sid : Int), sid + 1, ptr + (tok t).length)
      from rfl]
    obtain ⟨h1, h2⟩ := ih (setSlice segs ptr (tok t).length (sid : Int))
      (sid + 1) (ptr + (tok t).length)
    constructor
    · rw [h1]
      simp only [List.length_cons]
      omega
    · rw [h2, sumK_cons]
      omega

/-- C1: for every sentence whose word count and joined wordpiece count are
within the configured limits and whose joined tokenization length agrees
with the sum of its per-word tokenization lengths (each word yielding at
least one wordpiece), the segment map built by
`ConllWrapper.training_examples` has length `MAX_WORDPIECES`, holds the
sentinel -1 at position 0 (the leading marker), at the trailing-marker
position and at every trailing-padding position, its non-sentinel entries
lie in `0..word_count-1`, each word index `w` occurs exactly as many times
as the tokenizer produces wordpieces for word `w` in isolation (and at
least once), and the non-sentinel entries are non-decreasing in position. -/
theorem training_examples_segment_map (tok : String → List String)
    (MT MW : Nat) (toks : List String)
    (hwords : toks.length < MT)
    (hpieces : (sentWordpieces tok toks).length < MW)
    (hagree : (tok (joinWords toks)).length = sumK tok toks)
    (hk : ∀ t ∈ toks, 0 < (tok t).length) :
    (segmentsOf tok MW toks).length = MW ∧
    (segmentsOf tok MW toks).getD 0 (-1) = -1 ∧
    (∀ i : Nat, 1 + sumK tok toks ≤ i → (segmentsOf tok MW toks).getD i (-1) = -1) ∧
    (∀ i : Nat, (segmentsOf tok MW toks).getD i (-1) ≠ -1 →
       0 ≤ (segmentsOf tok MW toks).getD i (-1) ∧
       (segmentsOf tok MW toks).getD i (-1) < (toks.length : Int)) ∧
    (∀ w : Nat, w < toks.length →
       (segmentsOf tok MW toks).count ((w : Int)) = (tok (toks.getD w "")).length ∧
       ((w : Int)) ∈ segmentsOf tok MW toks) ∧
    (∀ i j : Nat, i ≤ j →
       (segmentsOf tok MW toks).getD i (-1) ≠ -1 →
       (segmentsOf tok MW toks).getD j (-1) ≠ -1 →
       (segmentsOf tok MW toks).getD i (-1) ≤ (segmentsOf tok MW toks).getD j (-1)) := by
  have hJ : (sentWordpieces tok toks).length = (tok (joinWords toks)).length + 2 := by
    simp [sentWordpieces]
  have hS : 1 + sumK tok toks ≤ MW := by omega
  have hseg : segmentsOf tok MW toks
      = (-1) :: (segSpecFrom tok 0 toks
          ++ List.replicate (MW - 1 - sumK tok toks) (-1)) := by
    rw [segmentsOf, segResult_eq tok MW toks hS]
  refine ⟨?_, ?_, ?_, ?_, ?_, ?_⟩
  · rw [hseg]
    simp only [List.length_cons, List.length_append, List.length_replicate,
      segSpecFrom_length]
    omega
  · rw [hseg]
    rfl
  · intro i hi
    rw [segments_entry tok MW toks hS i, if_neg (by omega)]
  · intro i hne
    rw [segments_entry tok MW toks hS i] at hne ⊢
    by_cases hc : 1 ≤ i ∧ i - 1 < sumK tok toks
    · rw [if_pos hc] at hne ⊢
      have hl : i - 1 < (segSpecFrom tok 0 toks).length := by
        rw [segSpecFrom_length]
        exact hc.2
      rw [List.getD_eq_getElem _ _ hl] at hne ⊢
      have hb := segSpecFrom_mem tok toks 0 _ (List.getElem_mem hl)
      constructor
      · simpa using hb.1
      · simpa using hb.2
    · rw [if_neg hc] at hne
      exact absurd rfl hne
  · intro w hw
    have hkw : 0 < (tok (toks.getD w "")).length := by
      apply hk
      rw [List.getD_eq_getElem _ _ hw]
      exact List.getElem_mem hw
    have hcnt : (segSpecFrom tok 0 toks).count ((w : Int))
        = (tok (toks.getD w "")).length := by
      simpa using segSpecFrom_count tok toks 0 w hw
    have hmem : ((w : Int)) ∈ segSpecFrom tok 0 toks := by
      simpa using segSpecFrom_mem_of tok toks 0 w hw hkw
    have hne1 : ¬((w : Int) = -1) := by omega
    have hne2 : ¬((-1 : Int) = (w : Int)) := by omega
    constructor
    · rw [hseg]
      simp [List.count_cons, List.count_append, List.count_replicate, hne1, hne2, hcnt]
    · rw [hseg]
      exact List.mem_cons_of_mem _ (List.mem_append_left _ hmem)
  · intro i j hij hi hj
    rw [segments_entry tok MW toks hS i] at hi ⊢
    rw [segments_entry tok MW toks hS j] at hj ⊢
    by_cases hic : 1 ≤ i ∧ i - 1 < sumK tok toks
    · by_cases hjc : 1 ≤ j ∧ j - 1 < sumK tok toks
      · rw [if_pos hic] at hi ⊢
        rw [if_pos hjc] at hj ⊢
        have hi' : i - 1 < (segSpecFrom tok 0 toks).length := by
          rw [segSpecFrom_length]
          exact hic.2
        have hj' : j - 1 < (segSpecFrom tok 0 toks).length := by
          rw [segSpecFrom_length]
          exact hjc.2
        rw [List.getD_eq_getElem _ _ hi', List.getD_eq_getElem _ _ hj']
        rcases Nat.lt_or_ge (i - 1) (j - 1) with hlt | hge
        · have hp := (List.pairwise_iff_get).mp (segSpecFrom_pairwise tok toks 0)
          exact hp ⟨i - 1, hi'⟩ ⟨j - 1, hj'⟩ hlt
        · have heq : i - 1 = j - 1 := by omega
          simp only [heq]
          exact le_refl _
      · rw [if_neg hjc] at hj
        exact absurd rfl hj
    · rw [if_neg hic] at hi
      exact absurd rfl hi

/-- A concrete tokenizer for witnesses: the two-word sentence
`["aa", "b"]` joins to `"aa b"`, whose joined tokenization agrees with the
concatenation of the per-word tokenizations (2 pieces + 1 piece). -/
def tokC (s : String) : List String :=
  if s = "aa b" then ["a", "a", "b"]
  else if s = "aa" then ["a", "a"]
  else ["b"]

/-- C1 witness: the concrete sentence satisfies all the limit, agreement
and positivity hypotheses, and word index 0 occurs exactly twice in its
segment map. -/
theorem training_examples_segment_map_witness :
    (segmentsOf tokC 10 ["aa", "b"]).count ((0 : Int)) = (tokC "aa").length :=
  ((training_examples_segment_map tokC 10 10 ["aa", "b"] (by decide) (by decide)
    (by decide) (by decide)).2.2.2.2.1 0 (by decide)).1

/-- C4 counterexample: a concrete sentence that passes both length limits
and the consistency check, whose `max_segment` entry is 2 (the word count)
while the maximum segment id actually observed in its segment map is 1:
the entry does not equal the maximum observed id. -/
theorem max_segment_counterexample :
    (["aa", "b"] : List String).length < 10 ∧
    (sentWordpieces tokC ["aa", "b"]).length < 10 ∧
    keptCheck tokC 10 ["aa", "b"] = true ∧
    maxSegmentEntryOf tokC 10 ["aa", "b"] = 2 ∧
    observedMax (segmentsOf tokC 10 ["aa", "b"]) = 1 := by
  decide

/-- C4 amended: for every surviving sentence, the per-sentence
`max_segment` entry equals the sentence's word count, which is one greater
than the maximum segment id actually observed in its segment map. -/
theorem max_segment_entry_amended (tok : String → List String)
    (MT MW : Nat) (toks : List String)
    (hwords : toks.length < MT)
    (hpieces : (sentWordpieces tok toks).length < MW)
    (hagree : (tok (joinWords toks)).length = sumK tok toks)
    (hk : ∀ t ∈ toks, 0 < (tok t).length)
    (hne : toks ≠ []) :
    maxSegmentEntryOf tok MW toks = toks.length ∧
    (maxSegmentEntryOf tok MW toks : Int)
      = observedMax (segmentsOf tok MW toks) + 1 := by
  have hJ : (sentWordpieces tok toks).length = (tok (joinWords toks)).length + 2 := by
    simp [sentWordpieces]
  have hS : 1 + sumK tok toks ≤ MW := by omega
  have hent : maxSegmentEntryOf tok MW toks = toks.length := by
    rw [maxSegmentEntryOf, segResult]
    rw [(segResult_counts tok toks (List.replicate MW (-1)) 0 1).1]
    omega
  have hlen : 0 < toks.length := List.length_pos.mpr hne
  have hseg : segmentsOf tok MW toks
      = (-1) :: (segSpecFrom tok 0 toks
          ++ List.replicate (MW - 1 - sumK tok toks) (-1)) := by
    rw [segmentsOf, segResult_eq tok MW toks hS]
  have hobs : observedMax (segmentsOf tok MW toks) = ((toks.length - 1 : Nat) : Int) := by
    rw [observedMax, hseg]
    apply le_antisymm
    · apply foldl_max_le
      · omega
      · intro x hx
        rcases List.mem_cons.mp hx with rfl | hx
        · omega
        · rcases List.mem_append.mp hx with hx | hx
          · have := (segSpecFrom_mem tok toks 0 x hx).2
            simp only [Nat.zero_add] at this
            omega
          · rw [List.eq_of_mem_replicate hx]
            omega
    · apply foldl_max_le_of_mem
      have hkw : 0 < (tok (toks.getD (toks.length - 1) "")).length := by
        apply hk
        rw [List.getD_eq_getElem _ _ (by omega)]
        exact List.getElem_mem (by omega)
      have hmem : (((toks.length - 1 : Nat)) : Int) ∈ segSpecFrom tok 0 toks := by
        simpa using segSpecFrom_mem_of tok toks 0 (toks.length - 1) (by omega) hkw
      exact List.mem_cons_of_mem _ (List.mem_append_left _ hmem)
  rw [hent, hobs]
  omega

/-- C4 amended witness at the concrete sentence. -/
theorem max_segment_entry_amended_witness :
    maxSegmentEntryOf tokC 10 ["aa", "b"] = (["aa", "b"] : List String).length ∧
    (maxSegmentEntryOf tokC 10 ["aa", "b"] : Int)
      = observedMax (segmentsOf tokC 10 ["aa", "b"]) + 1 :=
  max_segment_entry_amended tokC 10 10 ["aa", "b"] (by decide) (by decide)
    (by decide) (by decide) (by decide)

/-- C7 counterexample: a sentence within both length limits whose joined
and per-word tokenizations agree is kept by the code (the consistency
check passes), although its final wordpiece pointer (4) does not equal the
length of the joined wordpiece sequence including both markers (5): the
claimed keep-condition "pointer equals length" is false of the code. -/
theorem mismatch_check_counterexample :
    (["aa", "b"] : List String).length < 10 ∧
    (sentWordpieces tokC ["aa", "b"]).length < 10 ∧
    keptCheck tokC 10 ["aa", "b"] = true ∧
    finalPointerOf tokC 10 ["aa", "b"] = 4 ∧
    (sentWordpieces tokC ["aa", "b"]).length = 5 := by
  decide

/-- C7 amended: the final wordpiece pointer is the begin-offset 1 plus the
sum of per-word wordpiece counts, and `training_examples` keeps a sentence
(that passed both length checks) iff that pointer plus one equals the
length of the joined wordpiece sequence with both markers — equivalently,
iff the joined tokenization length equals the sum of the per-word
tokenization lengths; otherwise the sentence is rejected as a mismatch. -/
theorem mismatch_check_amended (tok : String → List String) (MW : Nat)
    (toks : List String) :
    finalPointerOf tok MW toks = 1 + sumK tok toks ∧
    (keptCheck tok MW toks = true ↔
      (tok (joinWords toks)).length = sumK tok toks) := by
  have hptr : finalPointerOf tok MW toks = 1 + sumK tok toks := by
    rw [finalPointerOf, segResult]
    rw [(segResult_counts tok toks (List.replicate MW (-1)) 0 1).2]
  refine ⟨hptr, ?_⟩
  have hJ : (sentWordpieces tok toks).length = (tok (joinWords toks)).length + 2 := by
    simp [sentWordpieces]
  rw [keptCheck, hptr, hJ]
  simp only [beq_iff_eq]
  omega

/-! ### `DistanceProbe.forward`

Source:
```
embeddings = self.bert_model(batch.wordpieces)
embeddings = tf.map_fn(lambda x: tf.math.unsorted_segment_mean(x[0], x[1], x[2]),
                       (embeddings, batch.segments, batch.max_token_len), ...)
embeddings = tf.reshape(embeddings, [embeddings.shape[0], batch.max_token_len[0],
                                     embeddings.shape[2]])
embeddings = embeddings @ self.Language_Maps[batch.language]
embeddings = embeddings @ self.Distance_Probe
embeddings = tf.expand_dims(embeddings, 1)
transposed_embeddings = tf.transpose(embeddings, perm=(0, 2, 1, 3))
diffs = embeddings - transposed_embeddings
squared_diffs = tf.reduce_sum(tf.math.square(diffs), axis=-1)
return squared_diffs
```
The BERT model is an opaque function parameter.
-/

/-- The fields of a forward-pass batch that `forward` consumes. -/
structure Batch where
  wordpieces : List (List Int)
  segments : List (List Int)
  max_token_len : List Nat
  language : String

/-- Pointwise mean of a group of rows (`unsorted_segment_mean`'s
per-segment reduction). -/
def meanRows (rows : List (List Rat)) : List Rat :=
  match rows with
  | [] => []
  | r :: _ =>
    (List.range r.length).map (fun j =>
      ((rows.map (fun row => row.getD j 0)).sum) / (rows.length : Rat))

/-- `tf.math.unsorted_segment_mean(data, segment_ids, num_segments)`:
row `s` of the result is the mean of the data rows whose id is `s`
(zeros for an empty segment); negative ids — the sentinel — belong to no
segment and are dropped. -/
def unsortedSegmentMean (data : Mat) (ids : List Int) (n : Nat) : Mat :=
  (List.range n).map (fun s =>
    let rows := ((ids.zip data).filter (fun p => p.1 == (s : Int))).map (fun p => p.2)
    if rows.isEmpty then List.replicate (data.headD []).length 0 else meanRows rows)

/-- Split a flat list into consecutive groups of `n` (the regrouping
semantics of `tf.reshape` on the flattened scalars). -/
def chunk {α : Type} (n : Nat) (xs : List α) : List (List α) :=
  let p := xs.foldl
    (fun acc x =>
      let cur := acc.2 ++ [x]
      if cur.length = n then (acc.1 ++ [cur], ([] : List α)) else (acc.1, cur))
    (([] : List (List α)), ([] : List α))
  if p.2.isEmpty then p.1 else p.1 ++ [p.2]

/-- `tf.reshape(t, [-, d1, d2])`: flatten to scalars, regroup into rows of
`d2` and sentences of `d1` rows. -/
def tfReshape3 (t : T3) (d1 d2 : Nat) : T3 :=
  chunk d1 (chunk d2 t.flatten.flatten)

/-- The source's `@` on a matrix pair: row `i` of `A` dotted with column
`j` of `B`. -/
def matMul (A B : Mat) : Mat :=
  A.map (fun row =>
    (List.range (B.headD []).length).map (fun j =>
      ((row.zip B).map (fun p => p.1 * p.2.getD j 0)).sum))

/-- Row `i` of the pairwise stage: entry `j` is
`reduce_sum(square(e_i - e_j), axis=-1)`, the broadcasted
`diffs`/`square`/`reduce_sum` pipeline at one ordered pair. -/
def sqRow (m : Mat) (ri : List Rat) : List Rat :=
  m.map (fun rj =>
    ((List.zipWith (fun x y => x - y) ri rj).map (fun v => v * v)).sum)

/-- The whole pairwise squared-distance matrix of one sentence: the
`expand_dims`/`transpose`/subtract/square/`reduce_sum` block. -/
def sqMat (m : Mat) : Mat :=
  m.map (fun ri => sqRow m ri)

/-- `DistanceProbe.forward`: BERT embeddings, per-sentence segment-mean
pooling, reshape to the batch's word count, the language map then the
shared projection, then the pairwise squared distances. -/
def forward (bertModel : List (List Int) → T3) (languageMaps : String → Mat)
    (distanceProbe : Mat) (batch : Batch) : T3 :=
  let embeddings := bertModel batch.wordpieces
  let pooled := List.zipWith3 (fun e s n => unsortedSegmentMean e s n)
    embeddings batch.segments batch.max_token_len
  let reshaped := tfReshape3 pooled (batch.max_token_len.headD 0)
    (((pooled.headD []).headD []).length)
  let mapped := reshaped.map (fun m => matMul m (languageMaps batch.language))
  let projected := mapped.map (fun m => matMul m distanceProbe)
  projected.map (fun m => sqMat m)

theorem sqdist_comm (x y : List Rat) :
    ((List.zipWith (fun a b => a - b) x y).map (fun v => v * v)).sum
      = ((List.zipWith (fun a b => a - b) y x).map (fun v => v * v)).sum := by
  induction x generalizing y with
  | nil => cases y <;> simp
  | cons a xs ih =>
    cases y with
    | nil => simp
    | cons b ys =>
      simp only [List.zipWith_cons_cons, List.map_cons, List.sum_cons, ih ys]
      ring

theorem sqdist_self (x : List Rat) :
    ((List.zipWith (fun a b => a - b) x x).map (fun v => v * v)).sum = 0 := by
  induction x with
  | nil => simp
  | cons a xs ih => simp [ih]

theorem sqMat_getD (m : Mat) (i j : Nat) :
    ((sqMat m).getD i []).getD j 0
      = if i < m.length ∧ j < m.length
        then ((List.zipWith (fun x y => x - y) (m.getD i []) (m.getD j [])).map
            (fun v => v * v)).sum
        else 0 := by
  by_cases hi : i < m.length
  · have h1 : (sqMat m).getD i [] = sqRow m (m.getD i []) := by
      rw [sqMat, List.getD_eq_getElem _ _ (by simpa using hi), List.getElem_map,
        List.getD_eq_getElem _ _ hi]
    rw [h1]
    by_cases hj : j < m.length
    · rw [if_pos ⟨hi, hj⟩, sqRow,
        List.getD_eq_getElem _ _ (by simpa using hj), List.getElem_map,
        List.getD_eq_getElem _ _ hj]
    · rw [if_neg (fun hc => hj hc.2), sqRow, List.getD_eq_default]
      simpa using Nat.le_of_not_lt hj
  · rw [if_neg (fun hc => hi hc.1)]
    have h0 : (sqMat m).getD i [] = [] :=
      List.getD_eq_default _ _ (by simpa [sqMat] using Nat.le_of_not_lt hi)
    rw [h0]
    rfl

theorem map_sqMat_symm (P : T3) (b i j : Nat) :
    (((P.map sqMat).getD b []).getD i []).getD j 0
      = (((P.map sqMat).getD b []).getD j []).getD i 0 := by
  have hb : (P.map sqMat).getD b [] = sqMat (P.getD b []) := by
    by_cases h : b < P.length
    · rw [List.getD_eq_getElem _ _ (by simpa using h), List.getElem_map,
        List.getD_eq_getElem _ _ h]
    · rw [List.getD_eq_default _ _ (by simpa using Nat.le_of_not_lt h),
        List.getD_eq_default _ _ (Nat.le_of_not_lt h)]
      rfl
  rw [hb, sqMat_getD, sqMat_getD]
  by_cases hc : i < (P.getD b []).length ∧ j < (P.getD b []).length
  · rw [if_pos hc, if_pos ⟨hc.2, hc.1⟩]
    exact sqdist_comm _ _
  · rw [if_neg hc, if_neg (fun h2 => hc ⟨h2.2, h2.1⟩)]

theorem map_sqMat_diag (P : T3) (b i : Nat) :
    (((P.map sqMat).getD b []).getD i []).getD i 0 = 0 := by
  have hb : (P.map sqMat).getD b [] = sqMat (P.getD b []) := by
    by_cases h : b < P.length
    · rw [List.getD_eq_getElem _ _ (by simpa using h), List.getElem_map,
        List.getD_eq_getElem _ _ h]
    · rw [List.getD_eq_default _ _ (by simpa using Nat.le_of_not_lt h),
        List.getD_eq_default _ _ (Nat.le_of_not_lt h)]
      rfl
  rw [hb, sqMat_getD]
  by_cases hc : i < (P.getD b []).length ∧ i < (P.getD b []).length
  · rw [if_pos hc]
    exact sqdist_self _
  · rw [if_neg hc]

/-- C8: for every batch, whatever the BERT embeddings and the probe
parameters, the distance tensor returned by `forward` is symmetric within
each sentence — entry (i, j) equals entry (j, i) — and has an all-zero
diagonal; in particular a sentence of all-identical word embeddings gets a
zero diagonal with symmetric off-diagonal values. -/
theorem forward_symmetric_zero_diagonal (bertModel : List (List Int) → T3)
    (languageMaps : String → Mat) (distanceProbe : Mat) (batch : Batch) :
    (∀ b i j : Nat,
      (((forward bertModel languageMaps distanceProbe batch).getD b []).getD i []).getD j 0
        = (((forward bertModel languageMaps distanceProbe batch).getD b []).getD j []).getD i 0) ∧
    (∀ b i : Nat,
      (((forward bertModel languageMaps distanceProbe batch).getD b []).getD i []).getD i 0
        = 0) := by
  unfold forward
  exact ⟨fun b i j => map_sqMat_symm _ b i j, fun b i => map_sqMat_diag _ b i⟩

end MTP
